import Mathlib

/-!
Verification development for the AoikLiveReload live reloader
(`src/aoiklivereload/aoiklivereload.py`).

Python strings are modelled as Lean `String`s; per-character operations work
on their `List Char` data.  POSIX path semantics are assumed
(`os.path.sep = '/'`), matching the platform behaviour the code joins with
(`'/'.join` at `_collect_leaf_paths`).
-/

namespace AoikLiveReload

/-- A path segment: the character data of one Python string produced by
`path.split(os.path.sep)` in `_find_short_paths`. -/
abbrev Seg := List Char

/-- Model of Python `path.split('/')` on character data: splits at every
occurrence of `'/'`, producing `n + 1` chunks for `n` separators. -/
def splitSegs : List Char → List Seg
  | [] => [[]]
  | c :: cs =>
    if c = '/' then [] :: splitSegs cs
    else
      match splitSegs cs with
      | [] => [[c]]
      | s :: ss => (c :: s) :: ss

/-- Model of Python `'/'.join(parts)` on character data
(`_collect_leaf_paths`, line 338). -/
def joinSegs : List Seg → List Char
  | [] => []
  | [s] => s
  | s :: ss => s ++ '/' :: joinSegs ss

/-- The segment list of a Python path string (`path.split(os.path.sep)`). -/
def segsOf (s : String) : List Seg := splitSegs s.data

/-- The Python string joining a segment list with `'/'`. -/
def joinPath (q : List Seg) : String := String.mk (joinSegs q)

/-! ### The nested-dict tree of `_find_short_paths`

The Python code builds a tree of nested dicts (`root_node = {}`,
`node.setdefault(part, {})`, `node.clear()`).  A dict node is modelled as an
association list from segment to child node, in insertion order. -/

inductive Trie : Type where
  | node : List (Seg × Trie) → Trie

instance : Inhabited Trie := ⟨Trie.node []⟩

/-- The child of a dict node under key `k`, an empty dict if absent
(the value `{}` that `setdefault(part, {})` would insert). -/
def childOf (cs : List (Seg × Trie)) (k : Seg) : Trie :=
  match cs with
  | [] => Trie.node []
  | (a, t) :: rest => if a = k then t else childOf rest k

/-- Replace the value under key `k` (first occurrence, keeping position), or
append the binding at the end if the key is absent — exactly how a Python
dict updates under `setdefault` plus in-place mutation of the child. -/
def upsert (cs : List (Seg × Trie)) (k : Seg) (t : Trie) : List (Seg × Trie) :=
  match cs with
  | [] => [(k, t)]
  | (a, u) :: rest => if a = k then (a, t) :: rest else (a, u) :: upsert rest k t

/-- One iteration of the insertion loop of `_find_short_paths` (lines
288–302): walk the parts with `setdefault`, then `node.clear()` on the final
node.  Functionally: clearing the reached node replaces the whole walked
branch, so the recursion rebuilds the branch with the cleared end. -/
def insertClear : Trie → List Seg → Trie
  | _, [] => Trie.node []
  | Trie.node cs, k :: ps => Trie.node (upsert cs k (insertClear (childOf cs k) ps))

/-- The leaf part-lists of the tree, in dict iteration order: the model of
`_collect_leaf_paths` (the `path_parts` accumulator is made explicit in the
returned lists; the final `'/'.join` is applied by the caller). -/
def leavesParts : Trie → List (List Seg)
  | .node [] => [[]]
  | .node [(k, t)] => (leavesParts t).map (k :: ·)
  | .node ((k, t) :: c :: rest) =>
      (leavesParts t).map (k :: ·) ++ leavesParts (.node (c :: rest))

/-- Well-formed dict trees: at every node the keys are distinct (always true
of a Python dict). -/
inductive WFT : Trie → Prop where
  | node : ∀ cs : List (Seg × Trie), (cs.map Prod.fst).Nodup →
      (∀ x ∈ cs, WFT x.2) → WFT (Trie.node cs)

/-- `q` is an element of `S` with no strict segment-sequence ancestor in `S`. -/
def minimalIn (S : List (List Seg)) (q : List Seg) : Prop :=
  q ∈ S ∧ ∀ r ∈ S, ¬(r <+: q ∧ r ≠ q)

/-! ### Sorting by length, longest first

Model of `sorted(path_parts_s, key=len, reverse=True)` (line 288).  Only the
non-increasing-length property of the order matters for the result set, which
is why the characterisation theorems hold for any Python set iteration
order. -/

/-- Insert into a length-descending list, keeping it descending. -/
def insertByLen (x : List Seg) : List (List Seg) → List (List Seg)
  | [] => [x]
  | y :: ys => if y.length < x.length then x :: y :: ys else y :: insertByLen x ys

/-- Sort part-lists by length, longest first. -/
def sortByLenDesc : List (List Seg) → List (List Seg)
  | [] => []
  | x :: xs => insertByLen x (sortByLenDesc xs)

/-! ### `_find_short_paths` -/

/-- Model of `LiveReloader._find_short_paths` (lines 263–315): split each
path into segments at `os.path.sep`, sort with the longest part-lists first,
feed each through the `setdefault` walk ending in `node.clear()`, then
collect the leaf paths joined with `'/'`.  The Python input is a set; it is
modelled as a list enumerating it, and the returned list's membership is
proved independent of that enumeration order. -/
def find_short_paths (paths : List String) : List String :=
  (leavesParts ((sortByLenDesc (paths.map segsOf)).foldl insertClear (Trie.node []))).map
    joinPath

/-- `x` is a strict ancestor of `y`: `y`'s segment sequence strictly extends
`x`'s (the relation the spec calls "X is an ancestor of Y"). -/
def strictAnc (x y : String) : Prop := segsOf x <+: segsOf y ∧ x ≠ y

instance strictAncDec (x y : String) : Decidable (strictAnc x y) :=
  inferInstanceAs (Decidable (_ ∧ _))

/-! ### `dispatch` (lines 357–392) -/

/-- Boolean test that `l₁` is an initial run of `l₂` (Python
`str.startswith`, on character data). -/
def isPre : List Char → List Char → Bool
  | [], _ => true
  | _ :: _, [] => false
  | a :: as, b :: bs => a == b && isPre as bs

/-- Python `src_path.startswith(w)` on character data. -/
def pyStartsWith (s w : String) : Bool := isPre w.data s.data

/-- Python `src_path.endswith(sfx)` on character data. -/
def pyEndsWith (s sfx : String) : Bool := isPre sfx.data.reverse s.data.reverse

/-- Model of `os.path.dirname` for POSIX paths: the part of the string up to
and including the last `'/'`, with trailing slashes then stripped unless the
head consists only of slashes. -/
def pyDirname (p : String) : String :=
  let head := (p.data.reverse.dropWhile (fun c => c != '/')).reverse
  if head ≠ [] ∧ head.any (fun c => c != '/') then
    String.mk ((head.reverse.dropWhile (fun c => c == '/')).reverse)
  else
    String.mk head

/-- The suffix normalisation of `dispatch` (lines 379–382): a path ending in
`.pyc` or `.pyo` has its last character dropped, giving the `.py` source
path. -/
def normalizeSourcePath (p : String) : String :=
  if pyEndsWith p ".pyc" || pyEndsWith p ".pyo" then String.mk p.data.dropLast else p

/-- Model of `LiveReloader.dispatch` (lines 357–392), counting the
`self.reload()` invocations for one file-system event with path `src_path`,
given the configured extra paths and the currently published watch set.  The
two `if` blocks of `dispatch` are independent (there is no `elif` and no
early return), so both can fire for a single event. -/
def dispatch_reload_count (extra_paths watch_paths : List String)
    (src_path : String) : Nat :=
  let c1 := if src_path ∈ extra_paths then 1 else 0
  let file_path := normalizeSourcePath src_path
  let c2 :=
    if pyEndsWith file_path ".py" &&
        watch_paths.any (fun w => pyStartsWith (pyDirname file_path) w) then 1 else 0
  c1 + c2

/-! ### `run_watcher` reconciliation (lines 158–223)

The registration table `watche_obj_map` maps a watch path to the watch
object returned by `observer.schedule`, or to the `None` sentinel stored
when `observer.schedule` raised `OSError`.  Watch objects are modelled as
natural-number handles; `observer.schedule`'s outcome is a function
`sched : String → Option Nat` (`none` models the `OSError` branch). -/

abbrev WatchTable := List (String × Option Nat)

/-- The key set of the table (`set(watche_obj_map)`). -/
def tkeys (t : WatchTable) : List String := t.map Prod.fst

/-- Dict lookup: `watche_obj_map[p]`, or `none` when `p` is not a key. -/
def tlookup : WatchTable → String → Option (Option Nat)
  | [], _ => none
  | (k, v) :: rest, p => if k = p then some v else tlookup rest p

/-- Dict removal: the table after `watche_obj_map.pop(p, None)`. -/
def terase : WatchTable → String → WatchTable
  | [], _ => []
  | (k, v) :: rest, p => if k = p then rest else (k, v) :: terase rest p

/-- One step of the registration loop (lines 183–207) for one desired path:
if the path is not yet a key (`if new_watch_path not in watche_obj_map`),
call `observer.schedule` and store the watch object, or store the `None`
sentinel if it raised `OSError`.  The second state component records the
paths for which `observer.schedule` was called. -/
def regStep (sched : String → Option Nat) (st : WatchTable × List String)
    (p : String) : WatchTable × List String :=
  if (tlookup st.1 p).isSome then st
  else (st.1 ++ [(p, sched p)], st.2 ++ [p])

/-- One step of the unregistration loop (lines 210–217) for one old path:
`watch_obj = watche_obj_map.pop(old_watch_path, None)`, then
`observer.unschedule(watch_obj)` only `if watch_obj is not None`.  The
second state component records the handles passed to
`observer.unschedule`. -/
def unregStep (st : WatchTable × List Nat) (p : String) : WatchTable × List Nat :=
  match tlookup st.1 p with
  | some (some h) => (terase st.1 p, st.2 ++ [h])
  | some none => (terase st.1 p, st.2)
  | none => (st.1, st.2)

/-- Result of one reconciliation pass: the final table, the paths passed to
`observer.schedule`, and the handles passed to `observer.unschedule`. -/
structure PassResult where
  table : WatchTable
  attempts : List String
  unscheduled : List Nat

/-- One pass of `run_watcher`'s loop body (lines 175–220).  `newOrder` is
the iteration order of the desired set `new_watch_path_s`; `oldOrder` is the
iteration order of the leftover old set (`set(watche_obj_map)` minus the
desired paths, which the loop maintains by `discard`ing each desired path
during registration). -/
def reconcile_pass (sched : String → Option Nat) (t : WatchTable)
    (newOrder oldOrder : List String) : PassResult :=
  let reg := newOrder.foldl (regStep sched) (t, [])
  let unreg := oldOrder.foldl unregStep (reg.1, [])
  ⟨unreg.1, reg.2, unreg.2⟩

/-- The live handle (not the sentinel) stored for `p`, if any. -/
def optHandle (t : WatchTable) (p : String) : Option Nat := (tlookup t p).bind id

/-- The live handles stored for the paths of `l`, in order. -/
def handlesAt (t : WatchTable) (l : List String) : List Nat :=
  l.filterMap (optHandle t)

/-! ### `__init__` mode validation (lines 89–110) and `reload` (lines 394–425) -/

/-- `RELOAD_MODE_VALUES` (lines 43–53). -/
def RELOAD_MODE_VALUES : List String := ["exec", "spawn_exit", "spawn_wait"]

/-- Model of the `reload_mode` handling in `LiveReloader.__init__` (lines
89–110): default per platform when the argument is `None`, then validate
against `RELOAD_MODE_VALUES`, raising `ValueError` (modelled as
`Except.error`) for any other value; on success the mode is stored. -/
def init_reload_mode (platform : String) (reload_mode : Option String) :
    Except String String :=
  let mode := match reload_mode with
    | none => if platform = "win32" then "spawn_wait" else "exec"
    | some m => m
  if mode ∈ RELOAD_MODE_VALUES then Except.ok mode
  else Except.error ("Invalid reload mode: " ++ mode ++ ".")

/-- The branch taken by `LiveReloader.reload` (lines 394–425). -/
inductive ReloadBranch : Type where
  | usingExec
  | usingSpawnExit
  | usingSpawnWait
  | invalidModeError
deriving DecidableEq

/-- Model of `LiveReloader.reload`'s dispatch on `self._reload_mode`: the
three strategy branches, or the final `raise ValueError` branch. -/
def reload_branch (mode : String) : ReloadBranch :=
  if mode = "exec" then ReloadBranch.usingExec
  else if mode = "spawn_exit" then ReloadBranch.usingSpawnExit
  else if mode = "spawn_wait" then ReloadBranch.usingSpawnWait
  else ReloadBranch.invalidModeError

/-! ### `reload_using_spawn_wait` (lines 482–502) -/

/-- The external effects invoked by `reload_using_spawn_wait`, as distinct
events. -/
inductive SysEffect : Type where
  | interruptMainThread
  | spawnChildProcess
  | waitChildTerminated
  | exitWatcherThread
deriving DecidableEq

/-- Model of `reload_using_spawn_wait` (lines 482–502) as its ordered trace
of external effects: `interrupt_main()` first, then `subprocess.call(...)`
— which spawns the child and blocks the watcher thread until the child
terminates — and finally `sys.exit(0)` ending the watcher thread. -/
def reload_using_spawn_wait_trace : List SysEffect :=
  [SysEffect.interruptMainThread, SysEffect.spawnChildProcess,
   SysEffect.waitChildTerminated, SysEffect.exitWatcherThread]

theorem splitSegs_ne_nil (l : List Char) : splitSegs l ≠ [] := by
  cases l with
  | nil => simp [splitSegs]
  | cons c cs =>
    by_cases h : c = '/'
    · simp [splitSegs, h]
    · simp only [splitSegs, if_neg h]
      cases splitSegs cs <;> simp

theorem joinSegs_cons_cons (s : Seg) (y : Seg) (ys : List Seg) :
    joinSegs (s :: y :: ys) = s ++ '/' :: joinSegs (y :: ys) := by
  rfl

/-- Joining the chunks of a split recovers the original character list:
`'/'.join(path.split('/')) == path`. -/
theorem joinSegs_splitSegs (l : List Char) : joinSegs (splitSegs l) = l := by
  induction l with
  | nil => rfl
  | cons c cs ih =>
    rcases hsp : splitSegs cs with _ | ⟨s, ss⟩
    · exact absurd hsp (splitSegs_ne_nil cs)
    · rw [hsp] at ih
      by_cases h : c = '/'
      · subst h
        have e1 : splitSegs ('/' :: cs) = [] :: splitSegs cs := by
          simp [splitSegs]
        rw [e1, hsp, joinSegs_cons_cons]
        simp [ih]
      · have e1 : splitSegs (c :: cs) = (c :: s) :: ss := by
          simp only [splitSegs, if_neg h, hsp]
        rw [e1]
        cases ss with
        | nil =>
          simp only [joinSegs] at ih ⊢
          rw [ih]
        | cons y ys =>
          rw [joinSegs_cons_cons] at ih
          rw [joinSegs_cons_cons]
          simp only [List.cons_append, ih]

/-- `splitSegs` is injective (both sides recover via `joinSegs`). -/
theorem splitSegs_inj {l₁ l₂ : List Char} (h : splitSegs l₁ = splitSegs l₂) :
    l₁ = l₂ := by
  have h1 := joinSegs_splitSegs l₁
  have h2 := joinSegs_splitSegs l₂
  rw [← h1, ← h2, h]

theorem joinPath_segsOf (s : String) : joinPath (segsOf s) = s := by
  simp [joinPath, segsOf, joinSegs_splitSegs]

theorem segsOf_inj {a b : String} (h : segsOf a = segsOf b) : a = b := by
  have : joinPath (segsOf a) = joinPath (segsOf b) := by rw [h]
  rwa [joinPath_segsOf, joinPath_segsOf] at this

theorem leavesParts_nil : leavesParts (.node []) = [[]] := by
  simp [leavesParts]

theorem leavesParts_single (k : Seg) (t : Trie) :
    leavesParts (.node [(k, t)]) = (leavesParts t).map (k :: ·) := by
  simp [leavesParts]

theorem leavesParts_cons2 (k : Seg) (t : Trie) (c : Seg × Trie) (rest : List (Seg × Trie)) :
    leavesParts (.node ((k, t) :: c :: rest)) =
      (leavesParts t).map (k :: ·) ++ leavesParts (.node (c :: rest)) := by
  simp [leavesParts]

theorem WFT_empty : WFT (Trie.node []) := by
  exact WFT.node [] (by simp) (by simp)

theorem WFT_childOf {cs : List (Seg × Trie)} (h : WFT (Trie.node cs)) (k : Seg) :
    WFT (childOf cs k) := by
  cases h with
  | node _ hnd hall =>
    induction cs with
    | nil => exact WFT_empty
    | cons x rest ih =>
      obtain ⟨a, t⟩ := x
      by_cases hak : a = k
      · simpa [childOf, hak] using hall (a, t) (by simp)
      · have hall2 : ∀ y ∈ rest, WFT y.2 := fun y hy => hall y (by simp [hy])
        have hnd2 : (rest.map Prod.fst).Nodup := by
          simp only [List.map_cons, List.nodup_cons] at hnd
          exact hnd.2
        simpa [childOf, hak] using ih hnd2 hall2

theorem mem_upsert_elim {cs : List (Seg × Trie)} {k : Seg} {t : Trie} {x : Seg × Trie}
    (h : x ∈ upsert cs k t) : x = (k, t) ∨ x ∈ cs := by
  induction cs with
  | nil => simpa [upsert] using h
  | cons y rest ih =>
    obtain ⟨a, u⟩ := y
    by_cases hak : a = k
    · subst hak
      rcases (by simpa [upsert] using h : x = (a, t) ∨ x ∈ rest) with h1 | h1
      · exact Or.inl h1
      · exact Or.inr (by simp [h1])
    · rcases (by simpa [upsert, hak] using h : x = (a, u) ∨ x ∈ upsert rest k t) with h1 | h1
      · exact Or.inr (by simp [h1])
      · rcases ih h1 with h2 | h2
        · exact Or.inl h2
        · exact Or.inr (by simp [h2])

theorem keys_upsert (cs : List (Seg × Trie)) (k : Seg) (t : Trie) :
    (upsert cs k t).map Prod.fst =
      if k ∈ cs.map Prod.fst then cs.map Prod.fst else cs.map Prod.fst ++ [k] := by
  induction cs with
  | nil => simp [upsert]
  | cons y rest ih =>
    obtain ⟨a, u⟩ := y
    by_cases hak : a = k
    · subst hak
      simp [upsert]
    · simp only [upsert, if_neg hak, List.map_cons, ih]
      by_cases hk : k ∈ rest.map Prod.fst
      · simp [hk, Ne.symm hak]
      · simp [hk, Ne.symm hak]

theorem nodup_keys_upsert {cs : List (Seg × Trie)} (k : Seg) (t : Trie)
    (h : (cs.map Prod.fst).Nodup) : ((upsert cs k t).map Prod.fst).Nodup := by
  rw [keys_upsert]
  by_cases hk : k ∈ cs.map Prod.fst
  · simpa [hk] using h
  · simpa [hk] using List.Nodup.append h (by simp) (by simpa using hk)

theorem mem_upsert_ne {cs : List (Seg × Trie)} {k a : Seg} {t u : Trie} (hak : a ≠ k) :
    (a, u) ∈ upsert cs k t ↔ (a, u) ∈ cs := by
  induction cs with
  | nil => simp [upsert, hak]
  | cons y rest ih =>
    obtain ⟨b, v⟩ := y
    by_cases hbk : b = k
    · subst hbk
      simp only [upsert, if_pos rfl]
      constructor
      · rintro h
        rcases List.mem_cons.mp h with h1 | h1
        · exact absurd (congrArg Prod.fst h1) hak
        · exact List.mem_cons_of_mem _ h1
      · intro h
        rcases List.mem_cons.mp h with h1 | h1
        · exact absurd (congrArg Prod.fst h1) hak
        · exact List.mem_cons_of_mem _ h1
    · simp only [upsert, if_neg hbk, List.mem_cons, ih]

theorem mem_upsert_key {cs : List (Seg × Trie)} {k : Seg} {t u : Trie}
    (hnd : (cs.map Prod.fst).Nodup) : (k, u) ∈ upsert cs k t ↔ u = t := by
  induction cs with
  | nil => simp [upsert]
  | cons y rest ih =>
    obtain ⟨b, v⟩ := y
    simp only [List.map_cons, List.nodup_cons] at hnd
    by_cases hbk : b = k
    · subst hbk
      constructor
      · intro h
        have h2 : (b, u) = (b, t) ∨ (b, u) ∈ rest := by simpa [upsert] using h
        rcases h2 with h1 | h1
        · exact (Prod.ext_iff.mp h1).2
        · exact absurd (List.mem_map_of_mem Prod.fst h1) hnd.1
      · rintro rfl
        simp [upsert]
    · constructor
      · intro h
        have h2 : (k, u) = (b, v) ∨ (k, u) ∈ upsert rest k t := by
          simpa [upsert, hbk] using h
        rcases h2 with h1 | h1
        · exact absurd ((Prod.ext_iff.mp h1).1).symm hbk
        · exact (ih hnd.2).mp h1
      · intro h
        have h3 := (ih hnd.2).mpr h
        simp [upsert, hbk, h3]

theorem childOf_of_mem {cs : List (Seg × Trie)} {k : Seg} {t : Trie}
    (hnd : (cs.map Prod.fst).Nodup) (h : (k, t) ∈ cs) : childOf cs k = t := by
  induction cs with
  | nil => simp at h
  | cons y rest ih =>
    obtain ⟨b, v⟩ := y
    simp only [List.map_cons, List.nodup_cons] at hnd
    rcases List.mem_cons.mp h with h1 | h1
    · injection h1 with hb hv
      subst hb
      subst hv
      simp [childOf]
    · have hbk : b ≠ k := by
        rintro rfl
        exact hnd.1 (List.mem_map_of_mem Prod.fst h1)
      simp [childOf, hbk, ih hnd.2 h1]

theorem mem_childOf_of_key {cs : List (Seg × Trie)} {k : Seg}
    (h : k ∈ cs.map Prod.fst) : (k, childOf cs k) ∈ cs := by
  induction cs with
  | nil => simp at h
  | cons y rest ih =>
    obtain ⟨b, v⟩ := y
    by_cases hbk : b = k
    · subst hbk
      simp [childOf]
    · have hk : k ∈ rest.map Prod.fst := by
        simp only [List.map_cons] at h
        rcases List.mem_cons.mp h with h1 | h1
        · exact absurd h1.symm hbk
        · exact h1
      simp [childOf, hbk, ih hk]

theorem childOf_of_not_key {cs : List (Seg × Trie)} {k : Seg}
    (h : k ∉ cs.map Prod.fst) : childOf cs k = Trie.node [] := by
  induction cs with
  | nil => rfl
  | cons y rest ih =>
    obtain ⟨b, v⟩ := y
    simp only [List.map_cons, List.mem_cons] at h
    push_neg at h
    simp [childOf, Ne.symm h.1, ih h.2]

theorem WFT_upsert {cs : List (Seg × Trie)} {k : Seg} {t : Trie}
    (h : WFT (Trie.node cs)) (ht : WFT t) : WFT (Trie.node (upsert cs k t)) := by
  cases h with
  | node _ hnd hall =>
    refine WFT.node _ (nodup_keys_upsert k t hnd) ?_
    intro x hx
    rcases mem_upsert_elim hx with h1 | h1
    · rw [h1]
      exact ht
    · exact hall x h1

/-- Membership in the leaf list of a dict node. -/
theorem mem_leavesParts (cs : List (Seg × Trie)) (q : List Seg) :
    q ∈ leavesParts (.node cs) ↔
      (cs = [] ∧ q = []) ∨ ∃ a t, (a, t) ∈ cs ∧ ∃ r ∈ leavesParts t, q = a :: r := by
  induction cs with
  | nil => simp [leavesParts_nil]
  | cons x rest ih =>
    obtain ⟨a, t⟩ := x
    cases rest with
    | nil =>
      rw [leavesParts_single]
      simp only [List.mem_map]
      constructor
      · rintro ⟨r, hr, rfl⟩
        exact Or.inr ⟨a, t, by simp, r, hr, rfl⟩
      · rintro (⟨h1, _⟩ | ⟨a', t', hmem, r, hr, rfl⟩)
        · simp at h1
        · have h2 : a' = a ∧ t' = t := by simpa using hmem
          obtain ⟨rfl, rfl⟩ := h2
          exact ⟨r, hr, rfl⟩
    | cons c rest' =>
      rw [leavesParts_cons2, List.mem_append, ih]
      simp only [List.mem_map]
      constructor
      · rintro (⟨r, hr, rfl⟩ | (⟨h1, _⟩ | ⟨a', t', hmem, r, hr, rfl⟩))
        · exact Or.inr ⟨a, t, by simp, r, hr, rfl⟩
        · simp at h1
        · exact Or.inr ⟨a', t', by simp [hmem], r, hr, rfl⟩
      · rintro (⟨h1, _⟩ | ⟨a', t', hmem, r, hr, rfl⟩)
        · simp at h1
        · rcases List.mem_cons.mp hmem with h2 | h2
          · have h3 : a' = a ∧ t' = t := by simpa using h2
            obtain ⟨rfl, rfl⟩ := h3
            exact Or.inl ⟨r, hr, rfl⟩
          · exact Or.inr (Or.inr ⟨a', t', h2, r, hr, rfl⟩)

theorem upsert_ne_nil (cs : List (Seg × Trie)) (k : Seg) (t : Trie) :
    upsert cs k t ≠ [] := by
  cases cs with
  | nil => simp [upsert]
  | cons y rest =>
    obtain ⟨a, u⟩ := y
    by_cases h : a = k <;> simp [upsert, h]

theorem WFT_insertClear (p : List Seg) :
    ∀ T : Trie, WFT T → WFT (insertClear T p) := by
  induction p with
  | nil =>
    intro T _
    cases T
    exact WFT_empty
  | cons k ps ih =>
    intro T hWF
    cases T with
    | node cs =>
      exact WFT_upsert hWF (ih (childOf cs k) (WFT_childOf hWF k))

/-- Effect of one insertion pass (`setdefault` walk + `node.clear()`) on the
leaf set: every leaf comparable with the inserted part-list disappears, the
inserted part-list becomes a leaf, and all other leaves survive. -/
theorem mem_leavesParts_insertClear (p : List Seg) :
    ∀ T : Trie, WFT T → ∀ q : List Seg,
      q ∈ leavesParts (insertClear T p) ↔
        ((q ∈ leavesParts T ∧ ¬ q <+: p ∧ ¬ p <+: q) ∨ q = p) := by
  induction p with
  | nil =>
    intro T _ q
    cases T
    rw [show insertClear (Trie.node _) [] = Trie.node [] from rfl, leavesParts_nil]
    have hq : [] <+: q := ⟨q, rfl⟩
    simp [hq]
  | cons k ps ih =>
    intro T hWF q
    cases T with
    | node cs =>
      have hnd : (cs.map Prod.fst).Nodup := by
        cases hWF with
        | node _ h1 _ => exact h1
      have hIH := ih (childOf cs k) (WFT_childOf hWF k)
      rw [show insertClear (Trie.node cs) (k :: ps) =
            Trie.node (upsert cs k (insertClear (childOf cs k) ps)) from rfl]
      rw [mem_leavesParts, mem_leavesParts]
      constructor
      · rintro (⟨hup, _⟩ | ⟨a, t, hmem, r, hr, rfl⟩)
        · exact absurd hup (upsert_ne_nil cs k _)
        · by_cases hak : a = k
          · subst hak
            have ht : t = insertClear (childOf cs a) ps := (mem_upsert_key hnd).mp hmem
            subst ht
            rcases (hIH r).mp hr with ⟨hrT, hnp1, hnp2⟩ | rfl
            · by_cases hkey : a ∈ cs.map Prod.fst
              · refine Or.inl ⟨Or.inr ⟨a, childOf cs a, mem_childOf_of_key hkey, r, hrT, rfl⟩, ?_, ?_⟩
                · intro hp
                  exact hnp1 ((List.cons_prefix_cons.mp hp).2)
                · intro hp
                  exact hnp2 ((List.cons_prefix_cons.mp hp).2)
              · rw [childOf_of_not_key hkey, leavesParts_nil] at hrT
                have hr0 : r = [] := by simpa using hrT
                subst hr0
                exact absurd ⟨ps, rfl⟩ hnp1
            · exact Or.inr rfl
          · have hmem2 : (a, t) ∈ cs := (mem_upsert_ne hak).mp hmem
            refine Or.inl ⟨Or.inr ⟨a, t, hmem2, r, hr, rfl⟩, ?_, ?_⟩
            · intro hp
              exact hak (List.cons_prefix_cons.mp hp).1
            · intro hp
              exact hak ((List.cons_prefix_cons.mp hp).1).symm
      · rintro (⟨hT, hnp1, hnp2⟩ | rfl)
        · rcases hT with ⟨rfl, rfl⟩ | ⟨a, t, hmem, r, hr, rfl⟩
          · exact absurd ⟨k :: ps, rfl⟩ hnp1
          · by_cases hak : a = k
            · subst hak
              refine Or.inr ⟨a, insertClear (childOf cs a) ps, (mem_upsert_key hnd).mpr rfl,
                r, ?_, rfl⟩
              apply (hIH r).mpr
              refine Or.inl ⟨?_, ?_, ?_⟩
              · rw [childOf_of_mem hnd hmem]
                exact hr
              · intro hp
                exact hnp1 (List.cons_prefix_cons.mpr ⟨rfl, hp⟩)
              · intro hp
                exact hnp2 (List.cons_prefix_cons.mpr ⟨rfl, hp⟩)
            · exact Or.inr ⟨a, t, (mem_upsert_ne hak).mpr hmem, r, hr, rfl⟩
        · exact Or.inr ⟨k, insertClear (childOf cs k) ps, (mem_upsert_key hnd).mpr rfl,
            ps, (hIH ps).mpr (Or.inr rfl), rfl⟩

theorem length_lt_of_ne {r q : List Seg} (h : r <+: q) (hne : r ≠ q) :
    r.length < q.length := by
  rcases Nat.lt_or_ge r.length q.length with h1 | h1
  · exact h1
  · exact absurd (List.IsPrefix.eq_of_length_le h h1) hne

theorem minimalIn_congr {S₁ S₂ : List (List Seg)} (h : ∀ a, a ∈ S₁ ↔ a ∈ S₂)
    (q : List Seg) : minimalIn S₁ q ↔ minimalIn S₂ q := by
  unfold minimalIn
  constructor
  · rintro ⟨h1, h2⟩
    exact ⟨(h q).mp h1, fun r hr => h2 r ((h r).mpr hr)⟩
  · rintro ⟨h1, h2⟩
    exact ⟨(h q).mpr h1, fun r hr => h2 r ((h r).mp hr)⟩

/-- Adding a path whose part-list is no longer than anything processed so far
turns "leaf set update" into "minimal set update". -/
theorem minimalIn_snoc (S : List (List Seg)) (p q : List Seg)
    (hlen : ∀ s ∈ S, p.length ≤ s.length) :
    ((minimalIn S q ∧ ¬ q <+: p ∧ ¬ p <+: q) ∨ q = p) ↔ minimalIn (S ++ [p]) q := by
  by_cases hqp : q = p
  · subst hqp
    constructor
    · intro _
      refine ⟨by simp, ?_⟩
      intro r hr
      rintro ⟨hpre, hne⟩
      rcases List.mem_append.mp hr with h1 | h1
      · exact absurd (hlen r h1) (Nat.not_le_of_lt (length_lt_of_ne hpre hne))
      · exact hne (by simpa using h1)
    · intro _
      exact Or.inr rfl
  · constructor
    · rintro (⟨⟨hqS, hmin⟩, h1, h2⟩ | h3)
      · refine ⟨List.mem_append_left _ hqS, ?_⟩
        intro r hr
        rcases List.mem_append.mp hr with hr1 | hr1
        · exact hmin r hr1
        · have : r = p := by simpa using hr1
          subst this
          rintro ⟨hpre, _⟩
          exact h2 hpre
      · exact absurd h3 hqp
    · rintro ⟨hq, hall⟩
      have hqS : q ∈ S := by
        rcases List.mem_append.mp hq with h1 | h1
        · exact h1
        · exact absurd (by simpa using h1) hqp
      refine Or.inl ⟨⟨hqS, fun r hr => hall r (List.mem_append_left _ hr)⟩, ?_, ?_⟩
      · intro hqpre
        have h1 : q.length ≤ p.length := List.IsPrefix.length_le hqpre
        have h2 : p.length ≤ q.length := hlen q hqS
        exact hqp (List.IsPrefix.eq_of_length_le hqpre h2)
      · intro hppre
        exact hall p (List.mem_append_right _ (by simp)) ⟨hppre, fun h => hqp h.symm⟩

/-- Folding the insertion loop over part-lists in non-increasing length order
leaves exactly the minimal part-lists as leaves. -/
theorem leaves_foldl_insertClear :
    ∀ (l : List (List Seg)) (T : Trie) (S : List (List Seg)),
      WFT T →
      (∀ q, q ∈ leavesParts T ↔ minimalIn S q) →
      (∀ p ∈ l, ∀ s ∈ S, p.length ≤ s.length) →
      List.Pairwise (fun a b => b.length ≤ a.length) l →
      ∀ q, q ∈ leavesParts (l.foldl insertClear T) ↔ minimalIn (S ++ l) q := by
  intro l
  induction l with
  | nil =>
    intro T S _ hinv _ _ q
    simpa using hinv q
  | cons p l' ih =>
    intro T S hWF hinv hlen hpair q
    have hWF2 : WFT (insertClear T p) := WFT_insertClear p T hWF
    have hinv2 : ∀ r, r ∈ leavesParts (insertClear T p) ↔ minimalIn (S ++ [p]) r := by
      intro r
      rw [mem_leavesParts_insertClear p T hWF r,
        ← minimalIn_snoc S p r (fun s hs => hlen p (by simp) s hs)]
      constructor
      · rintro (⟨h1, h2, h3⟩ | rfl)
        · exact Or.inl ⟨(hinv r).mp h1, h2, h3⟩
        · exact Or.inr rfl
      · rintro (⟨h1, h2, h3⟩ | rfl)
        · exact Or.inl ⟨(hinv r).mpr h1, h2, h3⟩
        · exact Or.inr rfl
    have hlen2 : ∀ p' ∈ l', ∀ s ∈ S ++ [p], p'.length ≤ s.length := by
      intro p' hp' s hs
      rcases List.mem_append.mp hs with h1 | h1
      · exact hlen p' (by simp [hp']) s h1
      · have : s = p := by simpa using h1
        subst this
        exact (List.pairwise_cons.mp hpair).1 p' hp'
    have h := ih (insertClear T p) (S ++ [p]) hWF2 hinv2 hlen2
      (List.pairwise_cons.mp hpair).2 q
    rw [List.foldl_cons]
    rw [h, List.append_assoc, List.singleton_append]

theorem perm_insertByLen (x : List Seg) (l : List (List Seg)) :
    List.Perm (insertByLen x l) (x :: l) := by
  induction l with
  | nil => exact List.Perm.refl _
  | cons y ys ih =>
    by_cases h : y.length < x.length
    · rw [insertByLen, if_pos h]
    · rw [insertByLen, if_neg h]
      exact (List.Perm.cons y ih).trans (List.Perm.swap x y ys)

theorem perm_sortByLenDesc (l : List (List Seg)) : List.Perm (sortByLenDesc l) l := by
  induction l with
  | nil => exact List.Perm.refl _
  | cons x xs ih =>
    exact (perm_insertByLen x (sortByLenDesc xs)).trans (List.Perm.cons x ih)

theorem pairwise_insertByLen (x : List Seg) (l : List (List Seg))
    (h : List.Pairwise (fun a b => b.length ≤ a.length) l) :
    List.Pairwise (fun a b => b.length ≤ a.length) (insertByLen x l) := by
  induction l with
  | nil => simp [insertByLen]
  | cons y ys ih =>
    obtain ⟨hy, hys⟩ := List.pairwise_cons.mp h
    by_cases hlt : y.length < x.length
    · rw [insertByLen, if_pos hlt]
      refine List.pairwise_cons.mpr ⟨?_, h⟩
      intro z hz
      rcases List.mem_cons.mp hz with rfl | hz1
      · exact Nat.le_of_lt hlt
      · exact Nat.le_trans (hy z hz1) (Nat.le_of_lt hlt)
    · rw [insertByLen, if_neg hlt]
      refine List.pairwise_cons.mpr ⟨?_, ih hys⟩
      intro z hz
      have hz2 : z ∈ x :: ys := (perm_insertByLen x ys).mem_iff.mp hz
      rcases List.mem_cons.mp hz2 with rfl | hz3
      · exact Nat.le_of_not_lt hlt
      · exact hy z hz3

theorem pairwise_sortByLenDesc (l : List (List Seg)) :
    List.Pairwise (fun a b => b.length ≤ a.length) (sortByLenDesc l) := by
  induction l with
  | nil => simp [sortByLenDesc]
  | cons x xs ih => exact pairwise_insertByLen x _ ih

/-- Full functional characterisation of `_find_short_paths` on a non-empty
candidate set: the result contains exactly the candidates that have no strict
ancestor among the candidates. -/
theorem mem_find_short_paths (paths : List String) (hne : paths ≠ []) (s : String) :
    s ∈ find_short_paths paths ↔ s ∈ paths ∧ ∀ r ∈ paths, ¬ strictAnc r s := by
  have hsne : sortByLenDesc (paths.map segsOf) ≠ [] := by
    intro h0
    have := (perm_sortByLenDesc (paths.map segsOf)).symm.length_eq
    rw [h0] at this
    simp only [List.length_nil] at this
    exact hne (List.map_eq_nil_iff.mp (List.length_eq_zero.mp this))
  rcases hsort : sortByLenDesc (paths.map segsOf) with _ | ⟨x, rest⟩
  · exact absurd hsort hsne
  · have hpair := pairwise_sortByLenDesc (paths.map segsOf)
    rw [hsort] at hpair
    obtain ⟨hpx, hpr⟩ := List.pairwise_cons.mp hpair
    -- invariant after the first insertion
    have hinv1 : ∀ q, q ∈ leavesParts (insertClear (Trie.node []) x) ↔ minimalIn [x] q := by
      intro q
      rw [mem_leavesParts_insertClear x (Trie.node []) WFT_empty q, leavesParts_nil]
      constructor
      · rintro (⟨h1, h2, _⟩ | rfl)
        · have : q = [] := by simpa using h1
          subst this
          exact absurd ⟨x, rfl⟩ h2
        · exact ⟨by simp, by
            rintro r hr ⟨hpre, hne2⟩
            exact hne2 (by simpa using hr)⟩
      · rintro ⟨h1, _⟩
        exact Or.inr (by simpa using h1)
    have hchar := leaves_foldl_insertClear rest (insertClear (Trie.node []) x) [x]
      (WFT_insertClear x _ WFT_empty) hinv1
      (fun p hp s hs => by
        have : s = x := by simpa using hs
        subst this
        exact hpx p hp) hpr
    have hmain : ∀ q, q ∈ leavesParts ((sortByLenDesc (paths.map segsOf)).foldl
        insertClear (Trie.node [])) ↔ minimalIn (paths.map segsOf) q := by
      intro q
      rw [hsort, List.foldl_cons, hchar q]
      apply minimalIn_congr
      intro a
      have hperm := perm_sortByLenDesc (paths.map segsOf)
      rw [hsort] at hperm
      exact hperm.mem_iff
    unfold find_short_paths
    rw [List.mem_map]
    constructor
    · rintro ⟨q, hq, rfl⟩
      have hmin := (hmain q).mp hq
      obtain ⟨hqP, hqmin⟩ := hmin
      obtain ⟨p₀, hp₀, rfl⟩ := List.mem_map.mp hqP
      rw [joinPath_segsOf]
      refine ⟨hp₀, ?_⟩
      rintro r hr ⟨hpre, hne2⟩
      exact hqmin (segsOf r) (List.mem_map_of_mem segsOf hr)
        ⟨hpre, fun h => hne2 (segsOf_inj h)⟩
    · rintro ⟨hs, hmin⟩
      refine ⟨segsOf s, (hmain (segsOf s)).mpr ⟨List.mem_map_of_mem segsOf hs, ?_⟩,
        joinPath_segsOf s⟩
      rintro r' hr' ⟨hpre, hne2⟩
      obtain ⟨r, hr, rfl⟩ := List.mem_map.mp hr'
      exact hmin r hr ⟨hpre, fun h => hne2 (by rw [h])⟩

theorem exists_min_length (l : List (List Seg)) (hne : l ≠ []) :
    ∃ q ∈ l, ∀ r ∈ l, q.length ≤ r.length := by
  induction l with
  | nil => exact absurd rfl hne
  | cons x xs ih =>
    cases xs with
    | nil =>
      exact ⟨x, by simp, by simp⟩
    | cons y ys =>
      obtain ⟨q, hq, hqmin⟩ := ih (by simp)
      by_cases h : x.length ≤ q.length
      · refine ⟨x, by simp, ?_⟩
        intro r hr
        rcases List.mem_cons.mp hr with rfl | hr1
        · exact Nat.le_refl _
        · exact Nat.le_trans h (hqmin r hr1)
      · refine ⟨q, by simp [hq], ?_⟩
        intro r hr
        rcases List.mem_cons.mp hr with rfl | hr1
        · exact Nat.le_of_lt (Nat.lt_of_not_le h)
        · exact hqmin r hr1

theorem find_short_paths_ne_nil (paths : List String) (hne : paths ≠ []) :
    find_short_paths paths ≠ [] := by
  obtain ⟨q, hq, hqmin⟩ := exists_min_length (paths.map segsOf)
    (fun h => hne (List.map_eq_nil_iff.mp h))
  obtain ⟨p₀, hp₀, rfl⟩ := List.mem_map.mp hq
  have hmem : p₀ ∈ find_short_paths paths := by
    rw [mem_find_short_paths paths hne p₀]
    refine ⟨hp₀, ?_⟩
    rintro r hr ⟨hpre, hne2⟩
    have hne3 : segsOf r ≠ segsOf p₀ := fun h => hne2 (segsOf_inj h)
    exact absurd (hqmin (segsOf r) (List.mem_map_of_mem segsOf hr))
      (Nat.not_le_of_lt (length_lt_of_ne hpre hne3))
  exact List.ne_nil_of_mem hmem

/-- The reduced set is ancestor-free. -/
theorem find_short_paths_anc_free (paths : List String) (hne : paths ≠ []) :
    ∀ r ∈ find_short_paths paths, ∀ s ∈ find_short_paths paths, ¬ strictAnc r s := by
  intro r hr s hs hanc
  have h1 := (mem_find_short_paths paths hne r).mp hr
  have h2 := (mem_find_short_paths paths hne s).mp hs
  exact h2.2 r h1.1 hanc

theorem find_short_paths_eval_nil : find_short_paths [] = [""] := by
  simp [find_short_paths, sortByLenDesc, leavesParts_nil, joinPath, joinSegs]

theorem find_short_paths_eval_emptystr : find_short_paths [""] = [""] := by
  simp [find_short_paths, segsOf, splitSegs, sortByLenDesc, insertByLen, insertClear,
    childOf, upsert, leavesParts_nil, leavesParts_single, leavesParts_cons2, joinPath,
    joinSegs]

/-- `_find_short_paths` is idempotent on every input (at the level of set
membership). -/
theorem find_short_paths_idem (qs : List String) (s : String) :
    s ∈ find_short_paths (find_short_paths qs) ↔ s ∈ find_short_paths qs := by
  by_cases hqs : qs = []
  · subst hqs
    rw [find_short_paths_eval_nil, find_short_paths_eval_emptystr]
  · have hfne := find_short_paths_ne_nil qs hqs
    rw [mem_find_short_paths _ hfne s]
    constructor
    · rintro ⟨h1, _⟩
      exact h1
    · intro h1
      exact ⟨h1, fun r hr => find_short_paths_anc_free qs hqs r hr s h1⟩

theorem find_short_paths_eval1 : find_short_paths ["/a", "/a/b", "/c"] = ["/a", "/c"] := by
  simp [find_short_paths, segsOf, splitSegs, sortByLenDesc, insertByLen, insertClear,
    childOf, upsert, leavesParts_nil, leavesParts_single, leavesParts_cons2, joinPath,
    joinSegs]

theorem find_short_paths_eval2 : find_short_paths ["/a", "/a/b", "/a/b/c"] = ["/a"] := by
  simp [find_short_paths, segsOf, splitSegs, sortByLenDesc, insertByLen, insertClear,
    childOf, upsert, leavesParts_nil, leavesParts_single, leavesParts_cons2, joinPath,
    joinSegs]

/-- **C1** (amended).  For candidates containing a strict ancestor pair
`X` ≺ `Y`, the reduced set never contains the descendant `Y`; and it
contains `X` whenever no strict ancestor of `X` is itself a candidate. -/
theorem C1_shortest_reduction_drops_descendants (paths : List String) (X Y : String)
    (hX : X ∈ paths) (_hY : Y ∈ paths) (hanc : strictAnc X Y)
    (hXmin : ∀ Z ∈ paths, ¬ strictAnc Z X) :
    X ∈ find_short_paths paths ∧ Y ∉ find_short_paths paths := by
  have hne : paths ≠ [] := List.ne_nil_of_mem hX
  constructor
  · exact (mem_find_short_paths paths hne X).mpr ⟨hX, hXmin⟩
  · intro hmem
    exact ((mem_find_short_paths paths hne Y).mp hmem).2 X hX hanc

/-- **C1** counterexample to the claim as stated: in `{/a, /a/b, /a/b/c}`,
`X = /a/b` is an ancestor of `Y = /a/b/c`, yet the reduced set (which is
`{/a}`) does not contain `X`. -/
theorem C1_counterexample :
    "/a/b" ∈ (["/a", "/a/b", "/a/b/c"] : List String) ∧
    "/a/b/c" ∈ (["/a", "/a/b", "/a/b/c"] : List String) ∧
    strictAnc "/a/b" "/a/b/c" ∧
    "/a/b" ∉ find_short_paths ["/a", "/a/b", "/a/b/c"] := by
  refine ⟨by decide, by decide, by decide, ?_⟩
  rw [find_short_paths_eval2]
  decide

/-- **C1** witness: the scenario `{/a, /a/b, /c}`. -/
theorem C1_witness :
    "/a" ∈ (["/a", "/a/b", "/c"] : List String) ∧
    "/a/b" ∈ (["/a", "/a/b", "/c"] : List String) ∧
    strictAnc "/a" "/a/b" ∧
    (∀ Z ∈ (["/a", "/a/b", "/c"] : List String), ¬ strictAnc Z "/a") ∧
    "/a" ∈ find_short_paths ["/a", "/a/b", "/c"] ∧
    "/a/b" ∉ find_short_paths ["/a", "/a/b", "/c"] ∧
    find_short_paths ["/a", "/a/b", "/c"] = ["/a", "/c"] := by
  have h := C1_shortest_reduction_drops_descendants ["/a", "/a/b", "/c"] "/a" "/a/b"
    (by decide) (by decide) (by decide) (by decide)
  exact ⟨by decide, by decide, by decide, by decide, h.1, h.2, find_short_paths_eval1⟩

/-- **C7** (amended).  For a nonempty candidate set without ancestor pairs the
reduced set equals the candidate set; and reduction is idempotent on every
input. -/
theorem C7_no_ancestors_identity_and_idempotent (paths : List String)
    (hne : paths ≠ [])
    (hfree : ∀ x ∈ paths, ∀ y ∈ paths, ¬ strictAnc x y) :
    (∀ s, s ∈ find_short_paths paths ↔ s ∈ paths) ∧
    (∀ qs : List String, ∀ s,
      s ∈ find_short_paths (find_short_paths qs) ↔ s ∈ find_short_paths qs) := by
  constructor
  · intro s
    rw [mem_find_short_paths paths hne s]
    constructor
    · rintro ⟨h1, _⟩
      exact h1
    · intro h1
      exact ⟨h1, fun r hr => hfree r hr s h1⟩
  · intro qs s
    exact find_short_paths_idem qs s

/-- **C7** counterexample to the claim as stated: the empty candidate set has
no ancestor pair, yet the reduced set is `{""}`, not the empty input set. -/
theorem C7_counterexample :
    "" ∈ find_short_paths [] ∧ "" ∉ ([] : List String) := by
  rw [find_short_paths_eval_nil]
  decide

/-- **C7** witness: `{/a, /c}` is reproduced exactly, and a double application
on `{/x}` changes nothing. -/
theorem C7_witness :
    (["/a", "/c"] : List String) ≠ [] ∧
    (∀ x ∈ (["/a", "/c"] : List String), ∀ y ∈ (["/a", "/c"] : List String),
      ¬ strictAnc x y) ∧
    ("/a" ∈ find_short_paths ["/a", "/c"] ↔ "/a" ∈ (["/a", "/c"] : List String)) ∧
    ("/x" ∈ find_short_paths (find_short_paths ["/x"]) ↔
      "/x" ∈ find_short_paths ["/x"]) := by
  have h := C7_no_ancestors_identity_and_idempotent ["/a", "/c"] (by decide) (by decide)
  exact ⟨by decide, by decide, h.1 "/a", h.2 ["/x"] "/x"⟩

/-- **C8** (amended).  `_find_short_paths` on the empty candidate set returns
the singleton set containing the empty path string (the root insertion loop
never runs, so the root node itself is collected as a leaf with path
`'/'.join(()) == ''`). -/
theorem C8_empty_input_gives_empty_string : find_short_paths [] = [""] :=
  find_short_paths_eval_nil

/-- **C8** counterexample to the claim as stated: the result on the empty
candidate set is not the empty set. -/
theorem C8_counterexample : find_short_paths [] ≠ [] := by
  rw [find_short_paths_eval_nil]
  decide

theorem isPre_iff (l₁ l₂ : List Char) : isPre l₁ l₂ = true ↔ l₁ <+: l₂ := by
  induction l₁ generalizing l₂ with
  | nil =>
    simp only [isPre]
    exact ⟨fun _ => ⟨l₂, rfl⟩, fun _ => trivial⟩
  | cons a as ih =>
    cases l₂ with
    | nil =>
      simp only [isPre]
      constructor
      · intro h
        exact absurd h (by simp)
      · rintro ⟨t, ht⟩
        simp at ht
    | cons b bs =>
      simp only [isPre, Bool.and_eq_true, beq_iff_eq, List.cons_prefix_cons, ih]

theorem pyStartsWith_iff (s w : String) : pyStartsWith s w = true ↔ w.data <+: s.data :=
  isPre_iff w.data s.data

/-- **C2** (amended).  An event for a non-extra path whose (normalised) name
has the source suffix and whose directory is a watch-set member or nested
under one triggers exactly one reload; an event for a non-extra path whose
directory does not extend any watch-set member (string prefix, as the code
tests) triggers none. -/
theorem C2_dispatch_under_watch_exactly_once :
    (∀ (extra_paths watch_paths : List String) (src_path : String),
      pyEndsWith (normalizeSourcePath src_path) ".py" = true →
      (∃ w ∈ watch_paths, pyDirname (normalizeSourcePath src_path) = w ∨
        pyStartsWith (pyDirname (normalizeSourcePath src_path)) (w ++ "/") = true) →
      src_path ∉ extra_paths →
      dispatch_reload_count extra_paths watch_paths src_path = 1) ∧
    (∀ (extra_paths watch_paths : List String) (src_path : String),
      src_path ∉ extra_paths →
      (∀ w ∈ watch_paths,
        pyStartsWith (pyDirname (normalizeSourcePath src_path)) w = false) →
      dispatch_reload_count extra_paths watch_paths src_path = 0) := by
  constructor
  · rintro extra_paths watch_paths src_path hsuf ⟨w, hw, hunder⟩ hnot
    have hstart : pyStartsWith (pyDirname (normalizeSourcePath src_path)) w = true := by
      rcases hunder with rfl | h1
      · exact (pyStartsWith_iff _ _).mpr ⟨[], List.append_nil _⟩
      · apply (pyStartsWith_iff _ _).mpr
        apply List.IsPrefix.trans ⟨"/".data, (String.data_append w "/").symm⟩
        exact (pyStartsWith_iff _ _).mp h1
    have hany : watch_paths.any
        (fun v => pyStartsWith (pyDirname (normalizeSourcePath src_path)) v) = true :=
      List.any_eq_true.mpr ⟨w, hw, hstart⟩
    simp [dispatch_reload_count, hnot, hsuf, hany]
  · intro extra_paths watch_paths src_path hnot hall
    have hany : watch_paths.any
        (fun v => pyStartsWith (pyDirname (normalizeSourcePath src_path)) v) = false := by
      rw [List.any_eq_false]
      intro v hv
      simp [hall v hv]
    simp [dispatch_reload_count, hnot, hany]

/-- **C2** counterexample to the claim as stated: an event for a `.py` path
directly under a watched directory that is also listed as an extra path takes
both independent `if` branches of `dispatch`, invoking reload twice, not
exactly once. -/
theorem C2_counterexample :
    pyEndsWith (normalizeSourcePath "/a/x.py") ".py" = true ∧
    pyDirname (normalizeSourcePath "/a/x.py") = "/a" ∧
    "/a" ∈ (["/a"] : List String) ∧
    dispatch_reload_count ["/a/x.py"] ["/a"] "/a/x.py" = 2 := by
  decide

/-- **C2** witness: a `.pyc` event under the watched directory (not an extra
path) reloads exactly once; an event in an unrelated directory reloads zero
times. -/
theorem C2_witness :
    pyEndsWith (normalizeSourcePath "/a/x.pyc") ".py" = true ∧
    "/a" ∈ (["/a"] : List String) ∧
    pyDirname (normalizeSourcePath "/a/x.pyc") = "/a" ∧
    ("/a/x.pyc" ∉ ([] : List String)) ∧
    dispatch_reload_count [] ["/a"] "/a/x.pyc" = 1 ∧
    pyStartsWith (pyDirname (normalizeSourcePath "/b/y.py")) "/a" = false ∧
    dispatch_reload_count [] ["/a"] "/b/y.py" = 0 := by
  refine ⟨by decide, by decide, by decide, by decide, ?_, by decide, ?_⟩
  · exact C2_dispatch_under_watch_exactly_once.1 [] ["/a"] "/a/x.pyc" (by decide)
      ⟨"/a", by decide, Or.inl (by decide)⟩ (by decide)
  · exact C2_dispatch_under_watch_exactly_once.2 [] ["/a"] "/b/y.py" (by decide)
      (by decide)

/-- **C3**.  An event whose path equals a configured extra path always
reloads (no extension filtering); an event that is not an extra path, has no
source-unit suffix, and whose directory does not extend any watch-set member
reloads zero times. -/
theorem C3_extra_path_triggers_reload :
    (∀ (extra_paths watch_paths : List String) (src_path : String),
      src_path ∈ extra_paths →
      1 ≤ dispatch_reload_count extra_paths watch_paths src_path) ∧
    (∀ (extra_paths watch_paths : List String) (src_path : String),
      src_path ∉ extra_paths →
      pyEndsWith (normalizeSourcePath src_path) ".py" = false →
      (∀ w ∈ watch_paths,
        pyStartsWith (pyDirname (normalizeSourcePath src_path)) w = false) →
      dispatch_reload_count extra_paths watch_paths src_path = 0) := by
  constructor
  · intro extra_paths watch_paths src_path hmem
    unfold dispatch_reload_count
    simp only [if_pos hmem]
    omega
  · intro extra_paths watch_paths src_path hnot hsuf _
    simp [dispatch_reload_count, hnot, hsuf]

/-- **C3** witness: the spec scenario `extra_paths = {/x/config.ini}` — the
extra path itself triggers (exactly once here), `/x/other.ini` does not. -/
theorem C3_witness :
    ("/x/config.ini" ∈ (["/x/config.ini"] : List String)) ∧
    1 ≤ dispatch_reload_count ["/x/config.ini"] ["/w"] "/x/config.ini" ∧
    dispatch_reload_count ["/x/config.ini"] ["/w"] "/x/config.ini" = 1 ∧
    ("/x/other.ini" ∉ (["/x/config.ini"] : List String)) ∧
    pyEndsWith (normalizeSourcePath "/x/other.ini") ".py" = false ∧
    pyStartsWith (pyDirname (normalizeSourcePath "/x/other.ini")) "/w" = false ∧
    dispatch_reload_count ["/x/config.ini"] ["/w"] "/x/other.ini" = 0 := by
  refine ⟨by decide, ?_, by decide, by decide, by decide, by decide, ?_⟩
  · exact C3_extra_path_triggers_reload.1 ["/x/config.ini"] ["/w"] "/x/config.ini"
      (by decide)
  · exact C3_extra_path_triggers_reload.2 ["/x/config.ini"] ["/w"] "/x/other.ini"
      (by decide) (by decide) (by decide)

theorem mem_tkeys_cons (k : String) (v : Option Nat) (rest : WatchTable) (p : String) :
    p ∈ tkeys ((k, v) :: rest) ↔ p = k ∨ p ∈ tkeys rest := by
  simp [tkeys]

theorem tlookup_eq_none_iff (t : WatchTable) (p : String) :
    tlookup t p = none ↔ p ∉ tkeys t := by
  induction t with
  | nil => simp [tlookup, tkeys]
  | cons x rest ih =>
    obtain ⟨k, v⟩ := x
    rw [mem_tkeys_cons]
    by_cases hk : k = p
    · subst hk
      simp [tlookup]
    · rw [show tlookup ((k, v) :: rest) p = tlookup rest p from by simp [tlookup, hk]]
      rw [ih]
      constructor
      · intro h
        push_neg
        exact ⟨fun hq => hk hq.symm, h⟩
      · intro h
        push_neg at h
        exact h.2

theorem tlookup_isSome_iff (t : WatchTable) (p : String) :
    (tlookup t p).isSome = true ↔ p ∈ tkeys t := by
  rw [Option.isSome_iff_ne_none]
  constructor
  · intro h
    by_contra hmem
    exact h ((tlookup_eq_none_iff t p).mpr hmem)
  · intro h hn
    exact ((tlookup_eq_none_iff t p).mp hn) h

theorem tlookup_append_single_ne (t : WatchTable) (q : String) (v : Option Nat)
    (p : String) (h : q ≠ p) : tlookup (t ++ [(q, v)]) p = tlookup t p := by
  induction t with
  | nil => simp [tlookup, h]
  | cons x rest ih =>
    obtain ⟨k, w⟩ := x
    by_cases hk : k = p
    · simp [tlookup, hk]
    · simp [tlookup, hk, ih]

theorem tlookup_append_single_self (t : WatchTable) (p : String) (v : Option Nat)
    (h : tlookup t p = none) : tlookup (t ++ [(p, v)]) p = some v := by
  induction t with
  | nil => simp [tlookup]
  | cons x rest ih =>
    obtain ⟨k, w⟩ := x
    by_cases hk : k = p
    · rw [show tlookup ((k, w) :: rest) p = some w by simp [tlookup, hk]] at h
      exact absurd h (by simp)
    · have h2 : tlookup rest p = none := by
        rw [show tlookup ((k, w) :: rest) p = tlookup rest p by simp [tlookup, hk]] at h
        exact h
      simp [tlookup, hk, ih h2]

theorem tkeys_append_single (t : WatchTable) (q : String) (v : Option Nat) :
    tkeys (t ++ [(q, v)]) = tkeys t ++ [q] := by
  simp [tkeys]

theorem tlookup_terase_of_ne (t : WatchTable) (q p : String) (h : q ≠ p) :
    tlookup (terase t q) p = tlookup t p := by
  induction t with
  | nil => simp [terase]
  | cons x rest ih =>
    obtain ⟨k, w⟩ := x
    by_cases hk : k = q
    · subst hk
      rw [show terase ((k, w) :: rest) k = rest from by simp [terase]]
      rw [show tlookup ((k, w) :: rest) p = tlookup rest p from by simp [tlookup, h]]
    · rw [show terase ((k, w) :: rest) q = (k, w) :: terase rest q from by
        simp [terase, hk]]
      by_cases hp : k = p
      · simp [tlookup, hp]
      · simp [tlookup, hp, ih]

theorem tkeys_terase_sublist (t : WatchTable) (q : String) :
    List.Sublist (tkeys (terase t q)) (tkeys t) := by
  induction t with
  | nil => simp [terase, tkeys]
  | cons x rest ih =>
    obtain ⟨k, w⟩ := x
    by_cases hk : k = q
    · simp only [terase, if_pos hk, tkeys, List.map_cons]
      exact List.sublist_cons_of_sublist k (List.Sublist.refl _)
    · simp only [terase, if_neg hk, tkeys, List.map_cons]
      exact List.Sublist.cons₂ k ih

theorem mem_tkeys_terase {t : WatchTable} (hnd : (tkeys t).Nodup) (q p : String) :
    p ∈ tkeys (terase t q) ↔ p ∈ tkeys t ∧ p ≠ q := by
  induction t with
  | nil => simp [terase, tkeys]
  | cons x rest ih =>
    obtain ⟨k, w⟩ := x
    have hnd0 : (k :: tkeys rest).Nodup := by simpa [tkeys] using hnd
    have hknotin : k ∉ tkeys rest := (List.nodup_cons.mp hnd0).1
    have hnd2 : (tkeys rest).Nodup := (List.nodup_cons.mp hnd0).2
    by_cases hk : k = q
    · subst hk
      rw [show terase ((k, w) :: rest) k = rest from by simp [terase]]
      rw [mem_tkeys_cons]
      constructor
      · intro h
        refine ⟨Or.inr h, ?_⟩
        rintro rfl
        exact hknotin h
      · rintro ⟨h1 | h1, h2⟩
        · exact absurd h1 h2
        · exact h1
    · rw [show terase ((k, w) :: rest) q = (k, w) :: terase rest q from by
        simp [terase, hk]]
      rw [mem_tkeys_cons, mem_tkeys_cons, ih hnd2]
      by_cases hpk : p = k
      · subst hpk
        simp [hk]
      · simp [hpk]

theorem nodup_tkeys_terase {t : WatchTable} (q : String)
    (hnd : (tkeys t).Nodup) : (tkeys (terase t q)).Nodup :=
  List.Nodup.sublist (tkeys_terase_sublist t q) hnd

/-! #### Registration-phase fold lemmas -/

theorem regStep_pos (sched : String → Option Nat) (t : WatchTable)
    (acc : List String) (q : String) (hq : (tlookup t q).isSome = true) :
    regStep sched (t, acc) q = (t, acc) := by
  unfold regStep
  rw [if_pos hq]

theorem regStep_neg (sched : String → Option Nat) (t : WatchTable)
    (acc : List String) (q : String) (hq : ¬(tlookup t q).isSome = true) :
    regStep sched (t, acc) q = (t ++ [(q, sched q)], acc ++ [q]) := by
  unfold regStep
  rw [if_neg hq]

theorem reg_preserves_entry (sched : String → Option Nat) :
    ∀ (l : List String) (t : WatchTable) (acc : List String) (p : String)
      (v : Option Nat), tlookup t p = some v →
      tlookup (l.foldl (regStep sched) (t, acc)).1 p = some v := by
  intro l
  induction l with
  | nil => intro t acc p v h; exact h
  | cons q rest ih =>
    intro t acc p v h
    rw [List.foldl_cons]
    by_cases hq : (tlookup t q).isSome
    · rw [regStep_pos sched t acc q hq]
      exact ih t acc p v h
    · rw [regStep_neg sched t acc q hq]
      apply ih _ _ p v
      by_cases hqp : q = p
      · subst hqp
        rw [h] at hq
        exact absurd (by simp) hq
      · rw [tlookup_append_single_ne t q _ p hqp]
        exact h

theorem reg_attempts_mono (sched : String → Option Nat) :
    ∀ (l : List String) (t : WatchTable) (acc : List String) (p : String),
      p ∈ acc → p ∈ (l.foldl (regStep sched) (t, acc)).2 := by
  intro l
  induction l with
  | nil => intro t acc p h; exact h
  | cons q rest ih =>
    intro t acc p h
    rw [List.foldl_cons]
    by_cases hq : (tlookup t q).isSome
    · rw [regStep_pos sched t acc q hq]
      exact ih t acc p h
    · rw [regStep_neg sched t acc q hq]
      exact ih _ _ p (List.mem_append_left _ h)

theorem reg_registers_new (sched : String → Option Nat) :
    ∀ (l : List String) (t : WatchTable) (acc : List String) (p : String),
      p ∈ l → tlookup t p = none →
      tlookup (l.foldl (regStep sched) (t, acc)).1 p = some (sched p) ∧
        p ∈ (l.foldl (regStep sched) (t, acc)).2 := by
  intro l
  induction l with
  | nil => intro t acc p h; simp at h
  | cons q rest ih =>
    intro t acc p hmem hnone
    rw [List.foldl_cons]
    by_cases hqp : q = p
    · subst hqp
      rw [regStep_neg sched t acc q (by simp [hnone])]
      constructor
      · exact reg_preserves_entry sched rest _ _ q (sched q)
          (tlookup_append_single_self t q (sched q) hnone)
      · exact reg_attempts_mono sched rest _ _ q (List.mem_append_right _ (by simp))
    · have hmem2 : p ∈ rest := by
        rcases List.mem_cons.mp hmem with h1 | h1
        · exact absurd h1.symm hqp
        · exact h1
      by_cases hq : (tlookup t q).isSome
      · rw [regStep_pos sched t acc q hq]
        exact ih t acc p hmem2 hnone
      · rw [regStep_neg sched t acc q hq]
        exact ih _ _ p hmem2 (by rw [tlookup_append_single_ne t q _ p hqp]; exact hnone)

theorem reg_attempt_mem (sched : String → Option Nat) :
    ∀ (l : List String) (t : WatchTable) (acc : List String) (q : String),
      q ∈ (l.foldl (regStep sched) (t, acc)).2 →
      q ∈ acc ∨ (q ∈ l ∧ tlookup t q = none) := by
  intro l
  induction l with
  | nil => intro t acc q h; exact Or.inl h
  | cons p rest ih =>
    intro t acc q h
    rw [List.foldl_cons] at h
    by_cases hp : (tlookup t p).isSome
    · rw [regStep_pos sched t acc p hp] at h
      rcases ih t acc q h with h1 | ⟨h1, h2⟩
      · exact Or.inl h1
      · exact Or.inr ⟨by simp [h1], h2⟩
    · rw [regStep_neg sched t acc p hp] at h
      rcases ih _ _ q h with h1 | ⟨h1, h2⟩
      · rcases List.mem_append.mp h1 with h3 | h3
        · exact Or.inl h3
        · have h4 : q = p := by simpa using h3
          subst h4
          exact Or.inr ⟨by simp, Option.not_isSome_iff_eq_none.mp hp⟩
      · by_cases hqp : p = q
        · subst hqp
          exact Or.inr ⟨by simp, Option.not_isSome_iff_eq_none.mp hp⟩
        · rw [tlookup_append_single_ne t p _ q hqp] at h2
          exact Or.inr ⟨by simp [h1], h2⟩

theorem mem_tkeys_reg (sched : String → Option Nat) :
    ∀ (l : List String) (t : WatchTable) (acc : List String) (p : String),
      p ∈ tkeys (l.foldl (regStep sched) (t, acc)).1 ↔ p ∈ tkeys t ∨ p ∈ l := by
  intro l
  induction l with
  | nil => intro t acc p; simp
  | cons q rest ih =>
    intro t acc p
    rw [List.foldl_cons]
    by_cases hq : (tlookup t q).isSome
    · rw [regStep_pos sched t acc q hq, ih t acc p]
      constructor
      · rintro (h1 | h1)
        · exact Or.inl h1
        · exact Or.inr (by simp [h1])
      · rintro (h1 | h1)
        · exact Or.inl h1
        · rcases List.mem_cons.mp h1 with rfl | h2
          · exact Or.inl ((tlookup_isSome_iff t p).mp hq)
          · exact Or.inr h2
    · rw [regStep_neg sched t acc q hq, ih _ _ p, tkeys_append_single]
      constructor
      · rintro (h1 | h1)
        · rcases List.mem_append.mp h1 with h2 | h2
          · exact Or.inl h2
          · exact Or.inr (by simp [show p = q by simpa using h2])
        · exact Or.inr (by simp [h1])
      · rintro (h1 | h1)
        · exact Or.inl (List.mem_append_left _ h1)
        · rcases List.mem_cons.mp h1 with rfl | h2
          · exact Or.inl (List.mem_append_right _ (by simp))
          · exact Or.inr h2

theorem nodup_tkeys_reg (sched : String → Option Nat) :
    ∀ (l : List String) (t : WatchTable) (acc : List String),
      (tkeys t).Nodup → (tkeys (l.foldl (regStep sched) (t, acc)).1).Nodup := by
  intro l
  induction l with
  | nil => intro t acc h; exact h
  | cons q rest ih =>
    intro t acc h
    rw [List.foldl_cons]
    by_cases hq : (tlookup t q).isSome
    · rw [regStep_pos sched t acc q hq]
      exact ih t acc h
    · rw [regStep_neg sched t acc q hq]
      apply ih
      rw [tkeys_append_single]
      refine List.Nodup.append h (by simp) ?_
      intro a ha hb
      have hab : a = q := by simpa using hb
      subst hab
      exact hq ((tlookup_isSome_iff t a).mpr ha)

theorem reg_lookup_of_not_mem (sched : String → Option Nat) :
    ∀ (l : List String) (t : WatchTable) (acc : List String) (p : String),
      p ∉ l → tlookup (l.foldl (regStep sched) (t, acc)).1 p = tlookup t p := by
  intro l
  induction l with
  | nil => intro t acc p _; rfl
  | cons q rest ih =>
    intro t acc p hp
    have hqp : q ≠ p := fun h => hp (by simp [h])
    have hrest : p ∉ rest := fun h => hp (by simp [h])
    rw [List.foldl_cons]
    by_cases hq : (tlookup t q).isSome
    · rw [regStep_pos sched t acc q hq]
      exact ih t acc p hrest
    · rw [regStep_neg sched t acc q hq, ih _ _ p hrest]
      exact tlookup_append_single_ne t q _ p hqp

/-! #### Unregistration-phase fold lemmas -/

theorem unregStep_none (t : WatchTable) (acc : List Nat) (p : String)
    (h : tlookup t p = none) : unregStep (t, acc) p = (t, acc) := by
  unfold unregStep
  rw [h]

theorem unregStep_sentinel (t : WatchTable) (acc : List Nat) (p : String)
    (h : tlookup t p = some none) : unregStep (t, acc) p = (terase t p, acc) := by
  unfold unregStep
  rw [h]

theorem unregStep_handle (t : WatchTable) (acc : List Nat) (p : String) (h₀ : Nat)
    (h : tlookup t p = some (some h₀)) :
    unregStep (t, acc) p = (terase t p, acc ++ [h₀]) := by
  unfold unregStep
  rw [h]

theorem unreg_lookup_of_not_mem :
    ∀ (l : List String) (t : WatchTable) (acc : List Nat) (p : String),
      p ∉ l → tlookup (l.foldl unregStep (t, acc)).1 p = tlookup t p := by
  intro l
  induction l with
  | nil => intro t acc p _; rfl
  | cons q rest ih =>
    intro t acc p hp
    have hqp : q ≠ p := fun h => hp (by simp [h])
    have hrest : p ∉ rest := fun h => hp (by simp [h])
    rw [List.foldl_cons]
    rcases hl : tlookup t q with _ | _ | h₀
    · rw [unregStep_none t acc q hl]
      exact ih t acc p hrest
    · rw [unregStep_sentinel t acc q hl, ih _ _ p hrest]
      exact tlookup_terase_of_ne t q p hqp
    · rw [unregStep_handle t acc q h₀ hl, ih _ _ p hrest]
      exact tlookup_terase_of_ne t q p hqp

theorem nodup_tkeys_unreg :
    ∀ (l : List String) (t : WatchTable) (acc : List Nat),
      (tkeys t).Nodup → (tkeys (l.foldl unregStep (t, acc)).1).Nodup := by
  intro l
  induction l with
  | nil => intro t acc h; exact h
  | cons q rest ih =>
    intro t acc h
    rw [List.foldl_cons]
    rcases hl : tlookup t q with _ | _ | h₀
    · rw [unregStep_none t acc q hl]
      exact ih t acc h
    · rw [unregStep_sentinel t acc q hl]
      exact ih _ _ (nodup_tkeys_terase q h)
    · rw [unregStep_handle t acc q h₀ hl]
      exact ih _ _ (nodup_tkeys_terase q h)

theorem mem_tkeys_unreg :
    ∀ (l : List String) (t : WatchTable) (acc : List Nat),
      (tkeys t).Nodup → ∀ p : String,
      (p ∈ tkeys (l.foldl unregStep (t, acc)).1 ↔ p ∈ tkeys t ∧ p ∉ l) := by
  intro l
  induction l with
  | nil =>
    intro t acc _ p
    simp
  | cons q rest ih =>
    intro t acc hnd p
    rw [List.foldl_cons]
    rcases hl : tlookup t q with _ | _ | h₀
    · rw [unregStep_none t acc q hl]
      rw [ih t acc hnd p]
      have hq : q ∉ tkeys t := (tlookup_eq_none_iff t q).mp hl
      constructor
      · rintro ⟨h1, h2⟩
        refine ⟨h1, ?_⟩
        intro h3
        rcases List.mem_cons.mp h3 with rfl | h4
        · exact hq h1
        · exact h2 h4
      · rintro ⟨h1, h2⟩
        exact ⟨h1, fun h3 => h2 (by simp [h3])⟩
    · rw [unregStep_sentinel t acc q hl]
      rw [ih _ _ (nodup_tkeys_terase q hnd) p, mem_tkeys_terase hnd q p]
      constructor
      · rintro ⟨⟨h1, h2⟩, h3⟩
        refine ⟨h1, ?_⟩
        intro h4
        rcases List.mem_cons.mp h4 with rfl | h5
        · exact h2 rfl
        · exact h3 h5
      · rintro ⟨h1, h2⟩
        exact ⟨⟨h1, fun h3 => h2 (by simp [h3])⟩, fun h3 => h2 (by simp [h3])⟩
    · rw [unregStep_handle t acc q h₀ hl]
      rw [ih _ _ (nodup_tkeys_terase q hnd) p, mem_tkeys_terase hnd q p]
      constructor
      · rintro ⟨⟨h1, h2⟩, h3⟩
        refine ⟨h1, ?_⟩
        intro h4
        rcases List.mem_cons.mp h4 with rfl | h5
        · exact h2 rfl
        · exact h3 h5
      · rintro ⟨h1, h2⟩
        exact ⟨⟨h1, fun h3 => h2 (by simp [h3])⟩, fun h3 => h2 (by simp [h3])⟩

theorem handlesAt_congr {t₁ t₂ : WatchTable} {l : List String}
    (h : ∀ p ∈ l, tlookup t₁ p = tlookup t₂ p) : handlesAt t₁ l = handlesAt t₂ l := by
  unfold handlesAt
  induction l with
  | nil => rfl
  | cons q rest ih =>
    rw [List.filterMap_cons, List.filterMap_cons]
    have hq : optHandle t₁ q = optHandle t₂ q := by
      unfold optHandle
      rw [h q (by simp)]
    rw [hq, ih (fun p hp => h p (by simp [hp]))]

theorem handlesAt_cons_none {t : WatchTable} {q : String} (rest : List String)
    (h : optHandle t q = none) : handlesAt t (q :: rest) = handlesAt t rest := by
  unfold handlesAt
  rw [List.filterMap_cons, h]

theorem handlesAt_cons_some {t : WatchTable} {q : String} {h₀ : Nat} (rest : List String)
    (h : optHandle t q = some h₀) :
    handlesAt t (q :: rest) = h₀ :: handlesAt t rest := by
  unfold handlesAt
  rw [List.filterMap_cons, h]

/-- Soundness of the unregistration loop: the handles passed to
`observer.unschedule` are exactly live (non-sentinel) handles looked up in
the table, each path's entry is consumed at most once, and no handle is
repeated provided the handles stored at the processed paths are pairwise
distinct. -/
theorem unreg_sound :
    ∀ (l : List String) (t : WatchTable) (acc : List Nat),
      (tkeys t).Nodup → l.Nodup → (handlesAt t l).Nodup →
      (∀ h ∈ acc, h ∉ handlesAt t l) → acc.Nodup →
      ((l.foldl unregStep (t, acc)).2.Nodup ∧
       ∀ h ∈ (l.foldl unregStep (t, acc)).2,
         h ∈ acc ∨ ∃ p, p ∈ l ∧ tlookup t p = some (some h)) := by
  intro l
  induction l with
  | nil =>
    intro t acc _ _ _ _ haccnd
    exact ⟨haccnd, fun h hh => Or.inl hh⟩
  | cons q rest ih =>
    intro t acc hkeys hlnd hhnd hdisj haccnd
    have hqrest : q ∉ rest := (List.nodup_cons.mp hlnd).1
    have hrestnd : rest.Nodup := (List.nodup_cons.mp hlnd).2
    have hlift : ∀ p ∈ rest, tlookup (terase t q) p = tlookup t p := by
      intro p hp
      exact tlookup_terase_of_ne t q p (fun h => hqrest (h ▸ hp))
    rw [List.foldl_cons]
    rcases hl : tlookup t q with _ | _ | h₀
    · -- path not in the table: nothing popped, nothing unscheduled
      rw [unregStep_none t acc q hl]
      have hnone : optHandle t q = none := by
        unfold optHandle
        rw [hl]
        rfl
      rw [handlesAt_cons_none rest hnone] at hhnd hdisj
      obtain ⟨h1, h2⟩ := ih t acc hkeys hrestnd hhnd hdisj haccnd
      refine ⟨h1, ?_⟩
      intro h hh
      rcases h2 h hh with h3 | ⟨p, hp, hp2⟩
      · exact Or.inl h3
      · exact Or.inr ⟨p, by simp [hp], hp2⟩
    · -- sentinel entry: popped, not unscheduled
      rw [unregStep_sentinel t acc q hl]
      have hnone : optHandle t q = none := by
        unfold optHandle
        rw [hl]
        rfl
      rw [handlesAt_cons_none rest hnone] at hhnd hdisj
      rw [← handlesAt_congr hlift] at hhnd hdisj
      obtain ⟨h1, h2⟩ := ih (terase t q) acc (nodup_tkeys_terase q hkeys) hrestnd
        hhnd hdisj haccnd
      refine ⟨h1, ?_⟩
      intro h hh
      rcases h2 h hh with h3 | ⟨p, hp, hp2⟩
      · exact Or.inl h3
      · exact Or.inr ⟨p, by simp [hp], by rw [← hlift p hp]; exact hp2⟩
    · -- live handle: popped and unscheduled exactly once
      rw [unregStep_handle t acc q h₀ hl]
      have hsome : optHandle t q = some h₀ := by
        unfold optHandle
        rw [hl]
        rfl
      rw [handlesAt_cons_some rest hsome] at hhnd hdisj
      have hh0 : h₀ ∉ handlesAt t rest := (List.nodup_cons.mp hhnd).1
      have hhnd2 : (handlesAt t rest).Nodup := (List.nodup_cons.mp hhnd).2
      have hh0acc : h₀ ∉ acc := fun h => hdisj h₀ h (by simp)
      have hdisj2 : ∀ h ∈ acc ++ [h₀], h ∉ handlesAt (terase t q) rest := by
        intro h hh
        rw [handlesAt_congr hlift]
        rcases List.mem_append.mp hh with h3 | h3
        · intro h4
          exact hdisj h h3 (by simp [h4])
        · have h4 : h = h₀ := by simpa using h3
          subst h4
          exact hh0
      have haccnd2 : (acc ++ [h₀]).Nodup := by
        refine List.Nodup.append haccnd (by simp) ?_
        intro a ha hb
        have hab : a = h₀ := by simpa using hb
        subst hab
        exact hh0acc ha
      rw [← handlesAt_congr hlift] at hhnd2
      obtain ⟨h1, h2⟩ := ih (terase t q) (acc ++ [h₀]) (nodup_tkeys_terase q hkeys)
        hrestnd hhnd2 hdisj2 haccnd2
      refine ⟨h1, ?_⟩
      intro h hh
      rcases h2 h hh with h3 | ⟨p, hp, hp2⟩
      · rcases List.mem_append.mp h3 with h4 | h4
        · exact Or.inl h4
        · have h5 : h = h₀ := by simpa using h4
          subst h5
          exact Or.inr ⟨q, by simp, hl⟩
      · exact Or.inr ⟨p, by simp [hp], by rw [← hlift p hp]; exact hp2⟩

/-- **C4**.  After one reconciliation pass with desired set `D2`, starting
from any registration table with distinct keys (the invariant of every table
the loop produces, including the initial `{}` and any table left by a pass
with desired set `D1`), the table's key set is exactly `D2` — for every
iteration order of the desired paths and of the leftover old paths
(`oldOrder` enumerates `set(watche_obj_map) - new_watch_path_s`). -/
theorem C4_reconciliation_converges (sched : String → Option Nat) (t : WatchTable)
    (newOrder oldOrder : List String)
    (hnd : (tkeys t).Nodup)
    (hold1 : ∀ k ∈ oldOrder, k ∈ tkeys t ∧ k ∉ newOrder)
    (hold2 : ∀ k ∈ tkeys t, k ∉ newOrder → k ∈ oldOrder) :
    ∀ k, k ∈ tkeys (reconcile_pass sched t newOrder oldOrder).table ↔ k ∈ newOrder := by
  intro k
  show k ∈ tkeys (oldOrder.foldl unregStep
    ((newOrder.foldl (regStep sched) (t, [])).1, [])).1 ↔ k ∈ newOrder
  rw [mem_tkeys_unreg oldOrder _ [] (by
    rw [show (newOrder.foldl (regStep sched) (t, [])).1 =
      (newOrder.foldl (regStep sched) (t, ([] : List String))).1 from rfl]
    exact nodup_tkeys_reg sched newOrder t [] hnd) k]
  rw [mem_tkeys_reg sched newOrder t [] k]
  constructor
  · rintro ⟨h1 | h1, h2⟩
    · by_cases hk : k ∈ newOrder
      · exact hk
      · exact absurd (hold2 k h1 hk) h2
    · exact h1
  · intro h1
    refine ⟨Or.inr h1, ?_⟩
    intro h2
    exact (hold1 k h2).2 h1

/-- **C4** witness: reconciling `{a ↦ handle 1, b ↦ sentinel}` towards the
desired set `{b, c}` yields exactly the keys `{b, c}`. -/
theorem C4_witness :
    ("b" ∈ tkeys (reconcile_pass (fun s => if s = "c" then some 2 else none)
        [("a", some 1), ("b", none)] ["b", "c"] ["a"]).table ↔
      "b" ∈ (["b", "c"] : List String)) ∧
    ("c" ∈ tkeys (reconcile_pass (fun s => if s = "c" then some 2 else none)
        [("a", some 1), ("b", none)] ["b", "c"] ["a"]).table ↔
      "c" ∈ (["b", "c"] : List String)) ∧
    ("a" ∈ tkeys (reconcile_pass (fun s => if s = "c" then some 2 else none)
        [("a", some 1), ("b", none)] ["b", "c"] ["a"]).table ↔
      "a" ∈ (["b", "c"] : List String)) :=
  ⟨C4_reconciliation_converges (fun s => if s = "c" then some 2 else none)
      [("a", some 1), ("b", none)] ["b", "c"] ["a"] (by decide) (by decide) (by decide) "b",
   C4_reconciliation_converges (fun s => if s = "c" then some 2 else none)
      [("a", some 1), ("b", none)] ["b", "c"] ["a"] (by decide) (by decide) (by decide) "c",
   C4_reconciliation_converges (fun s => if s = "c" then some 2 else none)
      [("a", some 1), ("b", none)] ["b", "c"] ["a"] (by decide) (by decide) (by decide) "a"⟩

/-- **C5**.  A failing registration (`sched p = none`, the `OSError` branch)
stores the `None` sentinel for the path and the pass completes (the model is
a total function — the exception is consumed by the `except OSError`
handler); on any later pass whose table still holds the sentinel and whose
desired set still contains the path, `observer.schedule` is not called for
it (the sentinel keeps the key present, so the
`if new_watch_path not in watche_obj_map` guard skips it) and the sentinel
survives.  `p ∉ oldOrder` holds in the real loop because every desired path
is `discard`ed from the old set during registration. -/
theorem C5_failed_registration_sentinel_never_retried
    (sched : String → Option Nat) (t : WatchTable) (newOrder oldOrder : List String)
    (p : String) (hnone : tlookup t p = none) (hmem : p ∈ newOrder)
    (hfail : sched p = none) (holdp : p ∉ oldOrder) :
    (tlookup (reconcile_pass sched t newOrder oldOrder).table p = some none ∧
      p ∈ (reconcile_pass sched t newOrder oldOrder).attempts) ∧
    (∀ (sched2 : String → Option Nat) (t2 : WatchTable) (new2 old2 : List String),
      tlookup t2 p = some none → p ∈ new2 → p ∉ old2 →
      p ∉ (reconcile_pass sched2 t2 new2 old2).attempts ∧
      tlookup (reconcile_pass sched2 t2 new2 old2).table p = some none) := by
  constructor
  · obtain ⟨hreg, hatt⟩ := reg_registers_new sched newOrder t [] p hmem hnone
    rw [hfail] at hreg
    constructor
    · show tlookup (oldOrder.foldl unregStep
        ((newOrder.foldl (regStep sched) (t, [])).1, [])).1 p = some none
      rw [unreg_lookup_of_not_mem oldOrder _ [] p holdp]
      exact hreg
    · exact hatt
  · intro sched2 t2 new2 old2 hsent _hmem2 hold2
    constructor
    · intro hatt
      rcases reg_attempt_mem sched2 new2 t2 [] p hatt with h1 | ⟨_, h2⟩
      · simp at h1
      · rw [hsent] at h2
        exact absurd h2 (by simp)
    · show tlookup (old2.foldl unregStep
        ((new2.foldl (regStep sched2) (t2, [])).1, [])).1 p = some none
      rw [unreg_lookup_of_not_mem old2 _ [] p hold2]
      exact reg_preserves_entry sched2 new2 t2 [] p none hsent

/-- **C5** witness: registering `/d` fails on an empty table; the sentinel
is recorded, and the immediately following pass with the same desired set
does not retry. -/
theorem C5_witness :
    tlookup ([] : WatchTable) "/d" = none ∧
    tlookup (reconcile_pass (fun _ => none) [] ["/d"] []).table "/d" = some none ∧
    "/d" ∈ (reconcile_pass (fun _ => none) [] ["/d"] []).attempts ∧
    "/d" ∉ (reconcile_pass (fun _ => none)
      (reconcile_pass (fun _ => none) [] ["/d"] []).table ["/d"] []).attempts ∧
    tlookup (reconcile_pass (fun _ => none)
      (reconcile_pass (fun _ => none) [] ["/d"] []).table ["/d"] []).table "/d" =
      some none := by
  have h := C5_failed_registration_sentinel_never_retried (fun _ => none) [] ["/d"] []
    "/d" (by decide) (by decide) (by decide) (by decide)
  have h2 := h.2 (fun _ => none) (reconcile_pass (fun _ => none) [] ["/d"] []).table
    ["/d"] [] (by decide) (by decide) (by decide)
  exact ⟨by decide, h.1.1, h.1.2, h2.1, h2.2⟩

/-- **C10**.  In a reconciliation pass, `observer.unschedule` receives only
live watch handles read from the table — never the `None` sentinel, which
the `if watch_obj is not None` test filters out — and no handle twice,
because `pop` removes a path's entry at the moment it is unscheduled (the
last conjunct: every processed old path is absent from the final table).
Hypotheses: table keys are distinct (a dict), the stale paths are distinct
and disjoint from the desired set (they enumerate
`set(watche_obj_map) - new_watch_path_s`), and the handles stored at stale
paths are pairwise distinct (each `observer.schedule` call returned a fresh
watch object). -/
theorem C10_unschedule_only_live_handles_once
    (sched : String → Option Nat) (t : WatchTable) (newOrder oldOrder : List String)
    (hkeys : (tkeys t).Nodup) (hold : oldOrder.Nodup)
    (hdisj : ∀ k ∈ oldOrder, k ∉ newOrder)
    (hhnd : (handlesAt t oldOrder).Nodup) :
    (reconcile_pass sched t newOrder oldOrder).unscheduled.Nodup ∧
    (∀ h ∈ (reconcile_pass sched t newOrder oldOrder).unscheduled,
      ∃ p, p ∈ oldOrder ∧ tlookup t p = some (some h)) ∧
    (∀ p ∈ oldOrder,
      tlookup (reconcile_pass sched t newOrder oldOrder).table p = none) := by
  have hlift : ∀ p ∈ oldOrder,
      tlookup (newOrder.foldl (regStep sched) (t, [])).1 p = tlookup t p := by
    intro p hp
    exact reg_lookup_of_not_mem sched newOrder t [] p (hdisj p hp)
  have hk1 : (tkeys (newOrder.foldl (regStep sched) (t, [])).1).Nodup :=
    nodup_tkeys_reg sched newOrder t [] hkeys
  have hh1 : (handlesAt (newOrder.foldl (regStep sched) (t, [])).1 oldOrder).Nodup := by
    rw [handlesAt_congr hlift]
    exact hhnd
  obtain ⟨hnd, hmem⟩ := unreg_sound oldOrder (newOrder.foldl (regStep sched) (t, [])).1
    [] hk1 hold hh1 (by simp) (by simp)
  refine ⟨hnd, ?_, ?_⟩
  · intro h hh
    rcases hmem h hh with h1 | ⟨p, hp, hp2⟩
    · simp at h1
    · exact ⟨p, hp, by rw [← hlift p hp]; exact hp2⟩
  · intro p hp
    rw [tlookup_eq_none_iff]
    intro hmem2
    exact (((mem_tkeys_unreg oldOrder _ [] hk1 p).mp hmem2).2) hp

/-- **C10** witness: unregistering `{a ↦ handle 5, b ↦ sentinel}` while `c`
stays desired unschedules exactly handle 5, once, and removes both
entries. -/
theorem C10_witness :
    (reconcile_pass (fun _ => none) [("a", some 5), ("b", none), ("c", some 7)]
      ["c"] ["a", "b"]).unscheduled.Nodup ∧
    (reconcile_pass (fun _ => none) [("a", some 5), ("b", none), ("c", some 7)]
      ["c"] ["a", "b"]).unscheduled = [5] ∧
    tlookup (reconcile_pass (fun _ => none) [("a", some 5), ("b", none), ("c", some 7)]
      ["c"] ["a", "b"]).table "a" = none ∧
    tlookup (reconcile_pass (fun _ => none) [("a", some 5), ("b", none), ("c", some 7)]
      ["c"] ["a", "b"]).table "b" = none := by
  have h := C10_unschedule_only_live_handles_once (fun _ => none)
    [("a", some 5), ("b", none), ("c", some 7)] ["c"] ["a", "b"]
    (by decide) (by decide) (by decide) (by decide)
  exact ⟨h.1, by decide, h.2.2 "a" (by decide), h.2.2 "b" (by decide)⟩

/-- **C6**.  An explicit mode outside `{exec, spawn_exit, spawn_wait}` makes
construction fail with `ValueError` (never silently replaced by a default);
an accepted explicit mode is stored exactly as given; and for every
successfully constructed instance the invalid-mode branch of `reload` is
unreachable — `reload` dispatches to exactly one of the three
strategies. -/
theorem C6_invalid_mode_rejected_at_construction :
    (∀ platform m : String, m ∉ RELOAD_MODE_VALUES →
      init_reload_mode platform (some m) =
        Except.error ("Invalid reload mode: " ++ m ++ ".")) ∧
    (∀ platform m m2 : String,
      init_reload_mode platform (some m) = Except.ok m2 → m2 = m) ∧
    (∀ (platform : String) (rm : Option String) (m : String),
      init_reload_mode platform rm = Except.ok m →
      (reload_branch m = ReloadBranch.usingExec ∨
       reload_branch m = ReloadBranch.usingSpawnExit ∨
       reload_branch m = ReloadBranch.usingSpawnWait) ∧
      reload_branch m ≠ ReloadBranch.invalidModeError) := by
  refine ⟨?_, ?_, ?_⟩
  · intro platform m hm
    simp [init_reload_mode, hm]
  · intro platform m m2 h
    by_cases hm : m ∈ RELOAD_MODE_VALUES
    · simp [init_reload_mode, hm] at h
      exact h.symm
    · simp [init_reload_mode, hm] at h
  · intro platform rm m h
    have hmem : m ∈ RELOAD_MODE_VALUES := by
      cases rm with
      | some m0 =>
        by_cases hm0 : m0 ∈ RELOAD_MODE_VALUES
        · simp only [init_reload_mode, if_pos hm0] at h
          injection h with h2
          rw [← h2]
          exact hm0
        · simp only [init_reload_mode, if_neg hm0] at h
          exact absurd h (by simp)
      | none =>
        by_cases hw : platform = "win32"
        · simp only [init_reload_mode, if_pos hw] at h
          rw [if_pos (by decide : ("spawn_wait" : String) ∈ RELOAD_MODE_VALUES)] at h
          injection h with h2
          rw [← h2]
          decide
        · simp only [init_reload_mode, if_neg hw] at h
          rw [if_pos (by decide : ("exec" : String) ∈ RELOAD_MODE_VALUES)] at h
          injection h with h2
          rw [← h2]
          decide
    rcases (by simpa [RELOAD_MODE_VALUES] using hmem :
        m = "exec" ∨ m = "spawn_exit" ∨ m = "spawn_wait") with rfl | rfl | rfl
    · exact ⟨Or.inl (by decide), by decide⟩
    · exact ⟨Or.inr (Or.inl (by decide)), by decide⟩
    · exact ⟨Or.inr (Or.inr (by decide)), by decide⟩

/-- **C6** witness: `mode = "bogus"` is rejected on a non-Windows platform,
and a successfully constructed `exec`-mode instance dispatches to the exec
strategy, not the error branch. -/
theorem C6_witness :
    ("bogus" ∉ RELOAD_MODE_VALUES) ∧
    init_reload_mode "linux" (some "bogus") =
      Except.error ("Invalid reload mode: " ++ "bogus" ++ ".") ∧
    init_reload_mode "linux" (some "exec") = Except.ok "exec" ∧
    reload_branch "exec" ≠ ReloadBranch.invalidModeError := by
  refine ⟨by decide, ?_, by rfl, ?_⟩
  · exact C6_invalid_mode_rejected_at_construction.1 "linux" "bogus" (by decide)
  · exact (C6_invalid_mode_rejected_at_construction.2.2 "linux" (some "exec") "exec"
      (by rfl)).2

/-- **C9**.  In `spawn_wait` mode a triggered reload interrupts the main
thread first, then spawns the child, blocks until the child terminates, and
exits the watcher thread only after the child has terminated. -/
theorem C9_spawn_wait_effect_order :
    reload_using_spawn_wait_trace.indexOf SysEffect.interruptMainThread = 0 ∧
    reload_using_spawn_wait_trace.indexOf SysEffect.interruptMainThread <
      reload_using_spawn_wait_trace.indexOf SysEffect.spawnChildProcess ∧
    reload_using_spawn_wait_trace.indexOf SysEffect.spawnChildProcess <
      reload_using_spawn_wait_trace.indexOf SysEffect.waitChildTerminated ∧
    reload_using_spawn_wait_trace.indexOf SysEffect.waitChildTerminated <
      reload_using_spawn_wait_trace.indexOf SysEffect.exitWatcherThread := by
  decide

end AoikLiveReload

